import Mathlib

/-!
Shallow embedding of `countdown_solver.py` (a solver for the Countdown
numbers game) and verification of its specification.

Python tuples of numbers are modelled as `List Int`, Python `dict`
(insertion-ordered) as an association list, generators as the lists of
the values they yield, and the `KeyError` that a failed dictionary
lookup would raise as `Option.none` propagated through the construction.
Python `//` and `%` on int are floor division and floor modulus, i.e.
`Int.fdiv` and `Int.fmod`.
-/

namespace Countdown

/-- `Calculation` from the source: an expression string, an integer result
and the flag `is_singleton` controlling parenthesization. -/
structure Calculation where
  expr : String
  result : Int
  is_singleton : Bool
deriving DecidableEq, Repr

/-- `Calculation.singleton`: the base case for a lone input number. -/
def Calculation.singleton (n : Int) : Calculation :=
  { expr := toString n, result := n, is_singleton := true }

/-- `Calculation.operations`: the generator of admissible `(result, op)`
pairs, in source order: add always, subtract when `x > y`, multiply when
`y > 1 and x > 1`, divide when `y > 1 and x % y == 0`. -/
def Calculation.operations (x y : Int) : List (Int × String) :=
  [(x + y, "+")]
    ++ (if y < x then [(x - y, "-")] else [])
    ++ (if 1 < y ∧ 1 < x then [(x * y, "x")] else [])
    ++ (if 1 < y ∧ x.fmod y = 0 then [(x.fdiv y, "/")] else [])

/-- `Calculation.generate`: swap the children so the larger result is on
the left, then emit one `Calculation` per admissible operation, each
child parenthesized unless it is a singleton. -/
def Calculation.generate (calca calcb : Calculation) : List Calculation :=
  let p := if calca.result < calcb.result then (calcb, calca) else (calca, calcb)
  (Calculation.operations p.1.result p.2.result).map fun ro =>
    let expr1 := if p.1.is_singleton then p.1.expr else "(" ++ p.1.expr ++ ")"
    let expr2 := if p.2.is_singleton then p.2.expr else "(" ++ p.2.expr ++ ")"
    { expr := expr1 ++ " " ++ ro.2 ++ " " ++ expr2, result := ro.1, is_singleton := false }

/-- `itertools.combinations`: all subsequences of a given length, in the
order `itertools` yields them (position-lexicographic). -/
def combinations : Nat → List Int → List (List Int)
  | 0, _ => [[]]
  | _ + 1, [] => []
  | m + 1, x :: xs => (combinations m xs).map (x :: ·) ++ combinations (m + 1) xs

/-- `Group.filtering`: greedily remove the elements of the second list
from the first (the Python generator walks the iterable once, advancing
through `elements`; once `elements` is exhausted the sentinel `None`
matches nothing and the rest of the iterable is yielded). -/
def filtering : List Int → List Int → List Int
  | ns, [] => ns
  | [], _ :: _ => []
  | n :: ns, k :: ks => if n == k then filtering ns ks else n :: filtering ns (k :: ks)

/-- `Group.halfbinom`: `None` for odd `n`, otherwise the closed-form
product for `C(n, k)` with interleaved integer divisions, halved by
integer division.  The Python loop runs `prod = (prod*m)//l` over
`m = n, n-1, ..., n-k+1` paired with `l = 1, 2, ..., k`; step `i`
(0-based) of the fold below is exactly the pair `(n - i, i + 1)`. -/
def Group.halfbinom (n k : Nat) : Option Nat :=
  if n % 2 == 1 then none
  else some (((List.range k).foldl (fun prod i => prod * (n - i) / (i + 1)) 1) / 2)

/-- `Group.paired_combinations`: enumerate size-`m` combinations with
their complements, stopping after `limit` pairs when a limit is given.
The Python counter `cnt` starts at 1, so a limit of 0 never fires. -/
def paired_combinations (numbers : List Int) (m : Nat) (limit : Option Nat) :
    List (List Int × List Int) :=
  let combos := combinations m numbers
  let combos := match limit with
    | none => combos
    | some l => if l == 0 then combos else combos.take l
  combos.map fun n1 => (n1, filtering numbers n1)

/-- The deduplication in `Group.partition_into_unique_pairs`: drop a pair
whose first component's content was already seen (`unique_numbers`). -/
def dedupPairs : List (List Int × List Int) → List (List Int) → List (List Int × List Int)
  | [], _ => []
  | p :: rest, seen =>
      if seen.contains p.1 then dedupPairs rest seen
      else p :: dedupPairs rest (p.1 :: seen)

/-- `Group.partition_into_unique_pairs`, at the level of number tuples
(before the dictionary lookups): empty for size 1; otherwise enumerate
`m` over `range((size+1)//2, size)`, `zip_longest`-ed with the 1-tuple
of limits `(halfbinom(size, size//2),)`, so only the first `m` carries a
limit, and deduplicate by the first component.  (A size-0 group is never
constructed by the solver, so the `zip_longest` padding of `m` itself is
unreachable.) -/
def partition_pairs (numbers : List Int) : List (List Int × List Int) :=
  if numbers.length == 1 then []
  else
    let size := numbers.length
    let firstLimit := Group.halfbinom size (size / 2)
    let ms := List.range' ((size + 1) / 2) (size - (size + 1) / 2)
    let candidates := ms.enum.flatMap fun im =>
      paired_combinations numbers im.2 (if im.1 == 0 then firstLimit else none)
    dedupPairs candidates []

/-- `Group`: a tuple of numbers, the resolved partition pairs, and the
list of calculations.  (`self.size` is `len(self.numbers)`, recomputed
here by `Group.size`.) -/
inductive Group where
  | mk (numbers : List Int) (partitions : List (Group × Group))
      (calculations : List Calculation)

def Group.numbers : Group → List Int
  | .mk ns _ _ => ns

def Group.partitions : Group → List (Group × Group)
  | .mk _ ps _ => ps

def Group.calculations : Group → List Calculation
  | .mk _ _ cs => cs

def Group.size (g : Group) : Nat := g.numbers.length

/-- The `all_groups` dictionary: an insertion-ordered association list. -/
abbrev GroupDict := List (List Int × Group)

/-- Python `numbers in all_groups` (dict key membership, by value). -/
def containsKey (d : GroupDict) (k : List Int) : Bool :=
  d.any fun p => p.1 == k

/-- Python `all_groups[numbers]`; `none` models the `KeyError`. -/
def lookupG (d : GroupDict) (k : List Int) : Option Group :=
  match d.find? (fun p => p.1 == k) with
  | some p => some p.2
  | none => none

/-- Resolve each pair of number tuples to its pair of already-built
groups, failing (like the Python `KeyError`) if a key is absent. -/
def resolvePairs (d : GroupDict) : List (List Int × List Int) → Option (List (Group × Group))
  | [] => some []
  | p :: rest =>
      match lookupG d p.1, lookupG d p.2 with
      | some g1, some g2 =>
          match resolvePairs d rest with
          | some tail => some ((g1, g2) :: tail)
          | none => none
      | _, _ => none

/-- `Group.perform_calculations`: the singleton base case for a size-1
tuple, otherwise `itertools.product` over each partition pair's
calculations, fed through `Calculation.generate`. -/
def perform_calculations (numbers : List Int) (parts : List (Group × Group)) :
    List Calculation :=
  match numbers with
  | [n] => [Calculation.singleton n]
  | _ => parts.flatMap fun gg =>
      gg.1.calculations.flatMap fun c1 =>
        gg.2.calculations.flatMap fun c2 =>
          Calculation.generate c1 c2

/-- `Group.__init__`: build the partitions (resolving against the groups
built so far) and the calculation list. -/
def Group.build (numbers : List Int) (all_groups : GroupDict) : Option Group :=
  match resolvePairs all_groups (partition_pairs numbers) with
  | some parts => some (Group.mk numbers parts (perform_calculations numbers parts))
  | none => none

/-- The body of the double loop of `Solutions.unique_groups`, over the
flattened stream of candidate keys: skip a key already present,
otherwise append the newly built group. -/
def addGroups (d : GroupDict) : List (List Int) → Option GroupDict
  | [] => some d
  | key :: rest =>
      if containsKey d key then addGroups d rest
      else
        match Group.build key d with
        | some g => addGroups (d ++ [(key, g)]) rest
        | none => none

/-- `Solutions.unique_groups`: for `m = 1..n`, every `m`-combination of
the input, deduplicated by value content, each new one backed by a
freshly built `Group`. -/
def unique_groups (all_numbers : List Int) : Option GroupDict :=
  addGroups [] ((List.range' 1 all_numbers.length).flatMap fun m =>
    combinations m all_numbers)

/-- `Solutions.walk`: every group's calculations, in dictionary
(insertion) order. -/
def walk (d : GroupDict) : List Calculation :=
  d.flatMap fun p => p.2.calculations

/-- One step of the search loop in `countdown_solver`. -/
def searchStep (target : Int) (acc : Int × List Calculation) (c : Calculation) :
    Int × List Calculation :=
  let diff := |c.result - target|
  if diff ≤ acc.1 then
    if diff < acc.1 then (diff, [c]) else (acc.1, acc.2 ++ [c])
  else acc

/-- The search loop of `countdown_solver`: running minimum initialized to
`target`, retained list initialized empty. -/
def search (target : Int) (calcs : List Calculation) : Int × List Calculation :=
  calcs.foldl (searchStep target) (target, [])

/-- The core of `countdown_solver` after input parsing: sort the numbers
descending, build the index, and scan every calculation. -/
def countdown_solver (target : Int) (unsorted_numbers : List Int) :
    Option (Int × List Calculation) :=
  let numbers := List.insertionSort (fun a b : Int => a ≥ b) unsorted_numbers
  match unique_groups numbers with
  | some d => some (search target (walk d))
  | none => none

/-- The expression strings of every calculation produced from a number
tuple taken as given (no sorting), in generation order. -/
def walkExprsOpt (ns : List Int) : Option (List String) :=
  (unique_groups ns).map fun d => (walk d).map Calculation.expr

/-- The keys of the subset index built from a number tuple as given. -/
def keysOpt (ns : List Int) : Option (List (List Int)) :=
  (unique_groups ns).map fun d => d.map fun p => p.1

/-- The invariants a built group enjoys, relative to the solve input
`ns`: a non-empty calculation list; strictly positive results when the
input numbers are strictly positive; each partition pair splitting the
group's numbers (sizes adding up, multiset union recovering them); and
no partitions for a size-1 group. -/
def GInv (ns : List Int) (g : Group) : Prop :=
  g.calculations ≠ [] ∧
  ((∀ x ∈ ns, 0 < x) → ∀ c ∈ g.calculations, 0 < c.result) ∧
  (∀ ab ∈ g.partitions,
    ab.1.numbers.length + ab.2.numbers.length = g.numbers.length ∧
    (ab.1.numbers ++ ab.2.numbers).Perm g.numbers) ∧
  (g.numbers.length = 1 → g.partitions = [])

/-- The invariant of the subset index under construction: every entry
maps a non-empty subsequence of the input to a group carrying that key
as its numbers and satisfying `GInv`. -/
def DictInv (ns : List Int) (d : GroupDict) : Prop :=
  ∀ p ∈ d, p.2.numbers = p.1 ∧ p.1.Sublist ns ∧ p.1 ≠ [] ∧ GInv ns p.2

end Countdown

namespace Countdown

/-- Every member of `combinations m l` is a subsequence of `l` of
length `m`. -/
theorem mem_combinations_sublist : ∀ (l : List Int) (m : Nat) (c : List Int),
    c ∈ combinations m l → c.Sublist l ∧ c.length = m
  | l, 0, c, h => by
      simp only [combinations, List.mem_singleton] at h
      subst h
      exact ⟨List.nil_sublist l, rfl⟩
  | [], m + 1, c, h => by simp [combinations] at h
  | x :: xs, m + 1, c, h => by
      simp only [combinations, List.mem_append, List.mem_map] at h
      rcases h with ⟨c', hc', rfl⟩ | h
      · obtain ⟨hs, hl⟩ := mem_combinations_sublist xs m c' hc'
        exact ⟨hs.cons₂ x, by simp [hl]⟩
      · obtain ⟨hs, hl⟩ := mem_combinations_sublist xs (m + 1) c h
        exact ⟨hs.cons x, hl⟩

/-- `combinations m l` is non-empty whenever `m ≤ l.length`. -/
theorem combinations_ne_nil : ∀ (m : Nat) (l : List Int),
    m ≤ l.length → combinations m l ≠ []
  | 0, l, _ => by simp [combinations]
  | m + 1, [], h => by simp at h
  | m + 1, x :: xs, h => by
      have := combinations_ne_nil m xs (by simpa using h)
      simp only [combinations, ne_eq, List.append_eq_nil, List.map_eq_nil_iff]
      intro hc
      exact this hc.1

/-- Greedily removing a subsequence from a list leaves a complementary
multiset: the removed part together with the remainder is a permutation
of the original list. -/
theorem filtering_perm : ∀ (ns ks : List Int), ks.Sublist ns →
    (ks ++ filtering ns ks).Perm ns := by
  intro ns
  induction ns with
  | nil =>
      intro ks h
      rw [List.sublist_nil.mp h]
      simp [filtering]
  | cons n ns ih =>
      intro ks h
      cases ks with
      | nil => simp [filtering]
      | cons k ks' =>
          by_cases hk : n = k
          · have hks : ks'.Sublist ns := by
              cases h with
              | cons _ h' => exact List.sublist_of_cons_sublist h'
              | cons₂ _ h' => exact h'
            rw [filtering, if_pos (by exact beq_iff_eq.mpr hk)]
            subst hk
            simpa using (ih ks' hks).cons n
          · have hsub : (k :: ks').Sublist ns := by
              cases h with
              | cons _ h' => exact h'
              | cons₂ _ h' => exact absurd rfl hk
            rw [filtering, if_neg (by simpa using hk)]
            have hmid : ((k :: ks') ++ n :: filtering ns (k :: ks')).Perm
                (n :: ((k :: ks') ++ filtering ns (k :: ks'))) := List.perm_middle
            exact hmid.trans ((ih (k :: ks') hsub).cons n)

/-- Deduplication only drops elements: members of the output were
members of the input. -/
theorem mem_of_mem_dedupPairs : ∀ (l : List (List Int × List Int)) (seen : List (List Int))
    (p : List Int × List Int), p ∈ dedupPairs l seen → p ∈ l
  | [], _, _, h => by simp [dedupPairs] at h
  | q :: rest, seen, p, h => by
      rw [dedupPairs] at h
      split at h
      · exact List.mem_cons_of_mem q (mem_of_mem_dedupPairs rest seen p h)
      · rcases List.mem_cons.mp h with rfl | h
        · exact List.mem_cons_self p rest
        · exact List.mem_cons_of_mem q (mem_of_mem_dedupPairs rest (q.1 :: seen) p h)

/-- Members of `paired_combinations` are a combination together with its
greedy complement. -/
theorem mem_paired_combinations {ns : List Int} {m : Nat} {lim : Option Nat}
    {p : List Int × List Int} (h : p ∈ paired_combinations ns m lim) :
    p.1 ∈ combinations m ns ∧ p.2 = filtering ns p.1 := by
  unfold paired_combinations at h
  rcases List.mem_map.mp (by
    rcases lim with _ | l
    · exact h
    · simp only at h
      split at h
      · exact h
      · exact List.mem_map.mpr (by
          obtain ⟨a, ha, rfl⟩ := List.mem_map.mp h
          exact ⟨a, (List.take_sublist _ _).mem ha, rfl⟩)) with ⟨n1, hn1, rfl⟩
  exact ⟨hn1, rfl⟩

/-- Every pair emitted by `partition_into_unique_pairs` (at tuple level)
is a combination of the group's numbers with its greedy complement. -/
theorem mem_partition_pairs {ns : List Int} {p : List Int × List Int}
    (h : p ∈ partition_pairs ns) :
    ∃ m, p.1 ∈ combinations m ns ∧ p.2 = filtering ns p.1 := by
  unfold partition_pairs at h
  split at h
  · simp at h
  · have h' := mem_of_mem_dedupPairs _ _ _ h
    obtain ⟨im, _, hp⟩ := List.mem_flatMap.mp h'
    exact ⟨im.2, mem_paired_combinations hp⟩

/-- Soundness of a partition pair: the first side is a subsequence, and
the two sides together are a permutation of the group's numbers. -/
theorem partition_pairs_perm {ns a b : List Int}
    (h : (a, b) ∈ partition_pairs ns) :
    a.Sublist ns ∧ (a ++ b).Perm ns := by
  obtain ⟨m, hc, hb⟩ := mem_partition_pairs h
  obtain ⟨hs, -⟩ := mem_combinations_sublist ns m a hc
  have hb' : b = filtering ns a := hb
  exact ⟨hs, by rw [hb']; exact filtering_perm ns a hs⟩

/-- A size-1 group has no partition pairs. -/
theorem partition_pairs_singleton {ns : List Int} (h : ns.length = 1) :
    partition_pairs ns = [] := by
  unfold partition_pairs
  rw [if_pos (by simpa using h)]

end Countdown

namespace Countdown

/-- Membership characterization of the admissible-operation generator. -/
theorem mem_operations {x y r : Int} {op : String} :
    (r, op) ∈ Calculation.operations x y ↔
      (r = x + y ∧ op = "+") ∨
      (y < x ∧ r = x - y ∧ op = "-") ∨
      ((1 < y ∧ 1 < x) ∧ r = x * y ∧ op = "x") ∨
      ((1 < y ∧ x.fmod y = 0) ∧ r = x.fdiv y ∧ op = "/") := by
  have hite : ∀ (c : Prop) (inst : Decidable c) (l : List (Int × String)) (q : Int × String),
      (q ∈ if c then l else []) ↔ c ∧ q ∈ l := by
    intro c inst l q
    split
    · next hc => simp [hc]
    · next hc => simp [hc]
  simp only [Calculation.operations, List.mem_append, hite, List.mem_singleton, Prod.mk.injEq]
  tauto

/-- The operation generator always yields at least the addition. -/
theorem operations_ne_nil (x y : Int) : Calculation.operations x y ≠ [] := by
  simp [Calculation.operations]

/-- `Calculation.generate` never yields an empty list. -/
theorem generate_ne_nil (a b : Calculation) : Calculation.generate a b ≠ [] := by
  unfold Calculation.generate
  simp only [ne_eq, List.map_eq_nil_iff]
  exact operations_ne_nil _ _

/-- The result of any member of `Calculation.generate a b` comes from
the operation generator applied to the two results in one of the two
orders. -/
theorem result_of_mem_generate {a b c : Calculation} (h : c ∈ Calculation.generate a b) :
    (∃ op, (c.result, op) ∈ Calculation.operations a.result b.result) ∨
    (∃ op, (c.result, op) ∈ Calculation.operations b.result a.result) := by
  unfold Calculation.generate at h
  by_cases hab : a.result < b.result
  · rw [if_pos hab] at h
    obtain ⟨ro, hro, rfl⟩ := List.mem_map.mp h
    exact Or.inr ⟨ro.2, hro⟩
  · rw [if_neg hab] at h
    obtain ⟨ro, hro, rfl⟩ := List.mem_map.mp h
    exact Or.inl ⟨ro.2, hro⟩

/-- Admissible operations on two strictly positive values produce
strictly positive results. -/
theorem operations_pos {x y : Int} (hx : 0 < x) (hy : 0 < y) :
    ∀ r op, (r, op) ∈ Calculation.operations x y → 0 < r := by
  intro r op h
  rcases mem_operations.mp h with ⟨rfl, -⟩ | ⟨hlt, rfl, -⟩ | ⟨⟨hy1, hx1⟩, rfl, -⟩ |
    ⟨⟨hy1, hmod⟩, rfl, -⟩
  · omega
  · omega
  · exact mul_pos hx hy
  · have hy0 : (0 : Int) ≤ y := by omega
    rw [Int.fmod_eq_emod x hy0] at hmod
    obtain ⟨k, rfl⟩ := Int.dvd_of_emod_eq_zero hmod
    rw [Int.mul_fdiv_cancel_left _ (by omega : y ≠ 0)]
    nlinarith

/-- `Calculation.generate` preserves strict positivity of results. -/
theorem generate_pos {a b : Calculation} (ha : 0 < a.result) (hb : 0 < b.result) :
    ∀ c ∈ Calculation.generate a b, 0 < c.result := by
  intro c hc
  rcases result_of_mem_generate hc with ⟨op, h⟩ | ⟨op, h⟩
  · exact operations_pos ha hb _ _ h
  · exact operations_pos hb ha _ _ h

/-- The first calculation generated is always the addition of the two
children's results. -/
theorem head_result_generate (a b : Calculation) :
    ∀ c, (Calculation.generate a b).head? = some c → c.result = a.result + b.result := by
  intro c h
  unfold Calculation.generate at h
  by_cases hab : a.result < b.result
  · rw [if_pos hab, List.head?_map,
      show (Calculation.operations b.result a.result).head? =
        some (b.result + a.result, "+") from rfl] at h
    obtain rfl := Option.some.inj h
    exact add_comm b.result a.result
  · rw [if_neg hab, List.head?_map,
      show (Calculation.operations a.result b.result).head? =
        some (a.result + b.result, "+") from rfl] at h
    obtain rfl := Option.some.inj h
    rfl

/-- The interleaved-division product loop of `halfbinom`, started from
`C(n, j)`, computes `C(n, j + b)`; every intermediate division is exact
because `C(n, j) * (n - j) = C(n, j+1) * (j+1)`. -/
theorem choose_foldl (n : Nat) : ∀ (b j : Nat), j + b ≤ n →
    (List.range' j b).foldl (fun prod i => prod * (n - i) / (i + 1)) (n.choose j)
      = n.choose (j + b) := by
  intro b
  induction b with
  | zero => intro j h; simp
  | succ b ih =>
      intro j h
      rw [List.range'_succ]
      simp only [List.foldl_cons]
      have hstep : n.choose j * (n - j) / (j + 1) = n.choose (j + 1) := by
        rw [← Nat.choose_succ_right_eq, Nat.mul_div_cancel _ (Nat.succ_pos j)]
      rw [hstep, show j + (b + 1) = (j + 1) + b by omega]
      exact ih (j + 1) (by omega)

/-- For even `n` and `k ≤ n`, `halfbinom` is exactly `C(n, k) / 2`. -/
theorem halfbinom_even {n k : Nat} (hn : n % 2 = 0) (hk : k ≤ n) :
    Group.halfbinom n k = some (n.choose k / 2) := by
  unfold Group.halfbinom
  rw [if_neg (by simp [hn])]
  have h0 : (List.range k).foldl (fun prod i => prod * (n - i) / (i + 1)) 1 = n.choose k := by
    have := choose_foldl n k 0 (by omega)
    simpa [List.range_eq_range'] using this
  rw [h0]

/-- For odd `n`, `halfbinom` returns `None`. -/
theorem halfbinom_odd {n k : Nat} (hn : n % 2 = 1) : Group.halfbinom n k = none := by
  unfold Group.halfbinom
  rw [if_pos (by simp [hn])]

/-- When the first-slot limit exists (even size ≥ 2) it is at least 1,
so truncation never empties the first block. -/
theorem halfbinom_limit_pos {s : Nat} (h2 : 2 ≤ s) :
    ∀ L, Group.halfbinom s (s / 2) = some L → 1 ≤ L := by
  intro L hL
  rcases Nat.even_or_odd s with he | ho
  · rw [halfbinom_even (Nat.even_iff.mp he) (Nat.div_le_self s 2)] at hL
    have hch : 2 ≤ s.choose (s / 2) := by
      have h1 : s.choose 1 ≤ s.choose (s / 2) := Nat.choose_le_middle 1 s
      rw [Nat.choose_one_right] at h1
      omega
    have hL2 : s.choose (s / 2) / 2 = L := Option.some.inj hL
    have : 1 ≤ s.choose (s / 2) / 2 := (Nat.le_div_iff_mul_le (by omega)).mpr (by omega)
    omega
  · rw [halfbinom_odd (Nat.odd_iff.mp ho)] at hL
    cases hL

end Countdown

namespace Countdown

/-- A non-empty candidate list survives deduplication. -/
theorem dedupPairs_ne_nil {l : List (List Int × List Int)} (h : l ≠ []) :
    dedupPairs l [] ≠ [] := by
  obtain ⟨p, rest, rfl⟩ := List.exists_cons_of_ne_nil h
  rw [dedupPairs]
  rw [if_neg (by simp)]
  simp

/-- `paired_combinations` is non-empty when the size fits and any given
limit is at least 1. -/
theorem paired_combinations_ne_nil {ns : List Int} {m : Nat} {lim : Option Nat}
    (hm : m ≤ ns.length) (hlim : ∀ L, lim = some L → 1 ≤ L) :
    paired_combinations ns m lim ≠ [] := by
  unfold paired_combinations
  simp only [ne_eq, List.map_eq_nil_iff]
  have hc := combinations_ne_nil m ns hm
  rcases lim with _ | L
  · exact hc
  · simp only
    split
    · exact hc
    · have hL := hlim L rfl
      obtain ⟨c, cs, hcc⟩ := List.exists_cons_of_ne_nil hc
      rw [hcc]
      cases L with
      | zero => omega
      | succ L => simp [List.take_succ_cons]

/-- A group of size at least 2 always has at least one partition pair. -/
theorem partition_pairs_ne_nil {ns : List Int} (h2 : 2 ≤ ns.length) :
    partition_pairs ns ≠ [] := by
  unfold partition_pairs
  rw [if_neg (by simp; omega)]
  apply dedupPairs_ne_nil
  obtain ⟨l, hl⟩ : ∃ l, ns.length - (ns.length + 1) / 2 = l + 1 :=
    ⟨ns.length - (ns.length + 1) / 2 - 1, by omega⟩
  have hpc : paired_combinations ns ((ns.length + 1) / 2)
      (Group.halfbinom ns.length (ns.length / 2)) ≠ [] :=
    paired_combinations_ne_nil (by omega) (halfbinom_limit_pos h2)
  obtain ⟨q, hq⟩ := List.exists_mem_of_ne_nil _ hpc
  have hmem : ((0 : Nat), (ns.length + 1) / 2) ∈
      (List.range' ((ns.length + 1) / 2) (ns.length - (ns.length + 1) / 2)).enum := by
    rw [hl, List.range'_succ]
    simp [List.enum_cons]
  have hq' : q ∈ paired_combinations ns (((0 : Nat), (ns.length + 1) / 2)).2
      (if ((((0 : Nat), (ns.length + 1) / 2)).1 == 0) = true then
        Group.halfbinom ns.length (ns.length / 2) else none) := by
    simpa using hq
  exact List.ne_nil_of_mem
    (List.mem_flatMap.mpr ⟨((0 : Nat), (ns.length + 1) / 2), hmem, hq'⟩)

/-- Membership in `perform_calculations`: either the singleton base case
or a calculation generated from one pairing of one partition pair. -/
theorem mem_perform_calculations {numbers : List Int} {parts : List (Group × Group)}
    {c : Calculation} (h : c ∈ perform_calculations numbers parts) :
    (∃ n, numbers = [n] ∧ c = Calculation.singleton n) ∨
    (∃ gg ∈ parts, ∃ c1 ∈ gg.1.calculations, ∃ c2 ∈ gg.2.calculations,
      c ∈ Calculation.generate c1 c2) := by
  match numbers with
  | [n] =>
      simp only [perform_calculations, List.mem_singleton] at h
      exact Or.inl ⟨n, rfl, h⟩
  | [] =>
      replace h : c ∈ parts.flatMap (fun gg =>
          gg.1.calculations.flatMap fun c1 =>
            gg.2.calculations.flatMap fun c2 =>
              Calculation.generate c1 c2) := h
      obtain ⟨gg, hgg, h⟩ := List.mem_flatMap.mp h
      obtain ⟨c1, hc1, h⟩ := List.mem_flatMap.mp h
      obtain ⟨c2, hc2, h⟩ := List.mem_flatMap.mp h
      exact Or.inr ⟨gg, hgg, c1, hc1, c2, hc2, h⟩
  | n :: m :: rest =>
      replace h : c ∈ parts.flatMap (fun gg =>
          gg.1.calculations.flatMap fun c1 =>
            gg.2.calculations.flatMap fun c2 =>
              Calculation.generate c1 c2) := h
      obtain ⟨gg, hgg, h⟩ := List.mem_flatMap.mp h
      obtain ⟨c1, hc1, h⟩ := List.mem_flatMap.mp h
      obtain ⟨c2, hc2, h⟩ := List.mem_flatMap.mp h
      exact Or.inr ⟨gg, hgg, c1, hc1, c2, hc2, h⟩

/-- `perform_calculations` is non-empty for a non-empty tuple, provided
every partition pair has non-empty child calculation lists and, when the
tuple is not a singleton, at least one partition pair exists. -/
theorem perform_calculations_ne_nil {numbers : List Int} {parts : List (Group × Group)}
    (hne : numbers ≠ [])
    (hparts : numbers.length ≠ 1 → parts ≠ [])
    (hchild : ∀ gg ∈ parts, gg.1.calculations ≠ [] ∧ gg.2.calculations ≠ []) :
    perform_calculations numbers parts ≠ [] := by
  match numbers with
  | [] => exact absurd rfl hne
  | [n] => simp [perform_calculations]
  | n :: m :: rest =>
      obtain ⟨gg, parts', rfl⟩ := List.exists_cons_of_ne_nil (hparts (by simp))
      obtain ⟨hc1, hc2⟩ := hchild gg (List.mem_cons_self _ _)
      obtain ⟨c1, hc1m⟩ := List.exists_mem_of_ne_nil _ hc1
      obtain ⟨c2, hc2m⟩ := List.exists_mem_of_ne_nil _ hc2
      obtain ⟨c, hcm⟩ := List.exists_mem_of_ne_nil _ (generate_ne_nil c1 c2)
      apply List.ne_nil_of_mem (a := c)
      show c ∈ (gg :: parts').flatMap fun gg =>
        gg.1.calculations.flatMap fun c1 =>
          gg.2.calculations.flatMap fun c2 =>
            Calculation.generate c1 c2
      exact List.mem_flatMap.mpr ⟨gg, List.mem_cons_self _ _,
        List.mem_flatMap.mpr ⟨c1, hc1m, List.mem_flatMap.mpr ⟨c2, hc2m, hcm⟩⟩⟩

/-- A successful lookup returns an entry of the dictionary, whose key is
the one looked up. -/
theorem lookupG_mem {d : GroupDict} {k : List Int} {g : Group}
    (h : lookupG d k = some g) : (k, g) ∈ d := by
  unfold lookupG at h
  split at h
  · next p hp =>
      obtain rfl := Option.some.inj h
      have h1 := List.find?_some hp
      have h2 := List.mem_of_find?_eq_some hp
      have h3 : p.1 = k := by simpa using h1
      rw [← h3]
      simpa using h2
  · cases h

/-- Resolution succeeds entrywise: every resolved pair of groups comes
from some pair of keys via successful lookups. -/
theorem resolvePairs_mem {d : GroupDict} :
    ∀ {ps : List (List Int × List Int)} {parts : List (Group × Group)},
      resolvePairs d ps = some parts →
      ∀ gp ∈ parts, ∃ p ∈ ps, lookupG d p.1 = some gp.1 ∧ lookupG d p.2 = some gp.2 := by
  intro ps
  induction ps with
  | nil =>
      intro parts h gp hgp
      rw [resolvePairs] at h
      obtain rfl := Option.some.inj h
      simp at hgp
  | cons p rest ih =>
      intro parts h gp hgp
      rw [resolvePairs] at h
      split at h
      · next g1 g2 h1 h2 =>
          split at h
          · next tail htail =>
              obtain rfl := Option.some.inj h
              rcases List.mem_cons.mp hgp with rfl | hgp
              · exact ⟨p, List.mem_cons_self _ _, h1, h2⟩
              · obtain ⟨q, hq, hl⟩ := ih htail gp hgp
                exact ⟨q, List.mem_cons_of_mem p hq, hl⟩
          · cases h
      · cases h

/-- Resolution preserves the number of pairs. -/
theorem resolvePairs_length {d : GroupDict} :
    ∀ {ps : List (List Int × List Int)} {parts : List (Group × Group)},
      resolvePairs d ps = some parts → parts.length = ps.length := by
  intro ps
  induction ps with
  | nil =>
      intro parts h
      rw [resolvePairs] at h
      obtain rfl := Option.some.inj h
      rfl
  | cons p rest ih =>
      intro parts h
      rw [resolvePairs] at h
      split at h
      · split at h
        · next tail htail =>
            obtain rfl := Option.some.inj h
            simpa using ih htail
        · cases h
      · cases h

end Countdown

namespace Countdown

/-- Building a group over a non-empty subsequence of the input, against
a dictionary satisfying the invariant, produces a group carrying its key
and satisfying the group invariant. -/
theorem build_inv {ns key : List Int} {d : GroupDict} {g : Group}
    (hd : DictInv ns d) (hkey : key.Sublist ns) (hne : key ≠ [])
    (hb : Group.build key d = some g) : g.numbers = key ∧ GInv ns g := by
  rcases hres : resolvePairs d (partition_pairs key) with _ | parts
  · rw [Group.build, hres] at hb
    cases hb
  · rw [Group.build, hres] at hb
    obtain rfl := Option.some.inj hb
    have hpmem := resolvePairs_mem hres
    have hplen := resolvePairs_length hres
    have hchild : ∀ gp ∈ parts,
        (gp.1.calculations ≠ [] ∧ gp.2.calculations ≠ []) ∧
        ((∀ x ∈ ns, 0 < x) →
          (∀ c ∈ gp.1.calculations, 0 < c.result) ∧
          (∀ c ∈ gp.2.calculations, 0 < c.result)) ∧
        gp.1.numbers.length + gp.2.numbers.length = key.length ∧
        (gp.1.numbers ++ gp.2.numbers).Perm key := by
      intro gp hgp
      obtain ⟨p, hp, h1, h2⟩ := hpmem gp hgp
      obtain ⟨e1, -, -, i1⟩ := hd _ (lookupG_mem h1)
      obtain ⟨e2, -, -, i2⟩ := hd _ (lookupG_mem h2)
      have hperm : (p.1 ++ p.2).Perm key := (partition_pairs_perm hp).2
      have hnum : (gp.1.numbers ++ gp.2.numbers).Perm key := by
        rw [e1, e2]
        exact hperm
      refine ⟨⟨i1.1, i2.1⟩, fun hpos => ⟨i1.2.1 hpos, i2.2.1 hpos⟩, ?_, hnum⟩
      have := hnum.length_eq
      simpa using this
    refine ⟨rfl, ?_, ?_, ?_, ?_⟩
    · show perform_calculations key parts ≠ []
      refine perform_calculations_ne_nil hne ?_ (fun gg hgg => (hchild gg hgg).1)
      intro hk1
      have h2 : 2 ≤ key.length := by
        have := List.length_pos.mpr hne
        omega
      have hppne := partition_pairs_ne_nil h2
      intro hpnil
      rw [hpnil] at hplen
      exact hppne (List.length_eq_zero.mp hplen.symm)
    · intro hpos c hc
      rcases mem_perform_calculations hc with ⟨n, hkn, rfl⟩ | ⟨gg, hgg, c1, hc1, c2, hc2, hcg⟩
      · have hn : n ∈ ns := hkey.subset (by rw [hkn]; simp)
        exact hpos n hn
      · obtain ⟨-, hposc, -, -⟩ := hchild gg hgg
        exact generate_pos ((hposc hpos).1 c1 hc1) ((hposc hpos).2 c2 hc2) c hcg
    · intro ab hab
      obtain ⟨-, -, hlen, hperm⟩ := hchild ab hab
      exact ⟨hlen, hperm⟩
    · intro h1
      have : partition_pairs key = [] := partition_pairs_singleton h1
      rw [this, resolvePairs] at hres
      obtain rfl := Option.some.inj hres
      rfl

/-- The construction loop preserves the dictionary invariant and only
appends entries. -/
theorem addGroups_inv {ns : List Int} :
    ∀ (keys : List (List Int)) (d d' : GroupDict),
      DictInv ns d →
      (∀ k ∈ keys, k.Sublist ns ∧ k ≠ []) →
      addGroups d keys = some d' →
      DictInv ns d' ∧ ∃ tail, d' = d ++ tail := by
  intro keys
  induction keys with
  | nil =>
      intro d d' hd hk h
      rw [addGroups] at h
      obtain rfl := Option.some.inj h
      exact ⟨hd, [], by simp⟩
  | cons key rest ih =>
      intro d d' hd hk h
      rw [addGroups] at h
      split at h
      · exact ih d d' hd (fun k hk' => hk k (List.mem_cons_of_mem _ hk')) h
      · rcases hb : Group.build key d with _ | g
        · rw [hb] at h
          cases h
        · rw [hb] at h
          obtain ⟨hkey, hkne⟩ := hk key (List.mem_cons_self _ _)
          obtain ⟨hgnum, hginv⟩ := build_inv hd hkey hkne hb
          have hd2 : DictInv ns (d ++ [(key, g)]) := by
            intro p hp
            rcases List.mem_append.mp hp with hp | hp
            · exact hd p hp
            · obtain rfl := List.mem_singleton.mp hp
              exact ⟨hgnum, hkey, hkne, hginv⟩
          obtain ⟨hinv, tail, htail⟩ :=
            ih _ d' hd2 (fun k hk' => hk k (List.mem_cons_of_mem _ hk')) h
          refine ⟨hinv, (key, g) :: tail, ?_⟩
          rw [htail, List.append_assoc]
          rfl

/-- A successfully built subset index satisfies the dictionary
invariant. -/
theorem unique_groups_inv {ns : List Int} {d : GroupDict}
    (h : unique_groups ns = some d) : DictInv ns d := by
  unfold unique_groups at h
  refine (addGroups_inv _ [] d ?_ ?_ h).1
  · intro p hp
    simp at hp
  · intro k hk
    obtain ⟨m, hm, hkc⟩ := List.mem_flatMap.mp hk
    obtain ⟨hs, hlen⟩ := mem_combinations_sublist ns m k hkc
    have hm' : 1 ≤ m := by
      rcases List.mem_range'.mp hm with ⟨i, hi, rfl⟩
      omega
    refine ⟨hs, ?_⟩
    intro hknil
    rw [hknil] at hlen
    simp at hlen
    omega

end Countdown

namespace Countdown

/-- The construction loop only ever appends entries. -/
theorem addGroups_prefix : ∀ (keys : List (List Int)) (d d' : GroupDict),
    addGroups d keys = some d' → ∃ tail, d' = d ++ tail := by
  intro keys
  induction keys with
  | nil =>
      intro d d' h
      rw [addGroups] at h
      obtain rfl := Option.some.inj h
      exact ⟨[], by simp⟩
  | cons key rest ih =>
      intro d d' h
      rw [addGroups] at h
      split at h
      · exact ih d d' h
      · rcases hb : Group.build key d with _ | g
        · rw [hb] at h
          cases h
        · rw [hb] at h
          obtain ⟨tail, htail⟩ := ih _ d' h
          refine ⟨(key, g) :: tail, ?_⟩
          rw [htail, List.append_assoc]
          rfl

/-- The subset index of a non-empty input is non-empty. -/
theorem unique_groups_ne_nil {ns : List Int} {d : GroupDict}
    (hne : ns ≠ []) (h : unique_groups ns = some d) : d ≠ [] := by
  obtain ⟨x, xs, rfl⟩ := List.exists_cons_of_ne_nil hne
  have hcand : (List.range' 1 (x :: xs).length).flatMap (fun m => combinations m (x :: xs)) =
      [x] :: (combinations 1 xs ++ (List.range' 2 xs.length).flatMap fun m =>
        combinations m (x :: xs)) := by
    rw [show (x :: xs).length = xs.length + 1 from rfl, List.range'_succ, List.flatMap_cons,
      show combinations 1 (x :: xs) = [x] :: combinations 1 xs by simp [combinations]]
    rfl
  unfold unique_groups at h
  rw [hcand] at h
  rw [addGroups] at h
  rw [if_neg (by simp [containsKey])] at h
  rcases hb : Group.build [x] [] with _ | g
  · rw [hb] at h
    cases h
  · rw [hb] at h
    obtain ⟨tail, htail⟩ := addGroups_prefix _ _ _ h
    rw [htail]
    simp

/-- Walking a successfully built index over a non-empty input yields at
least one calculation. -/
theorem walk_ne_nil {ns : List Int} {d : GroupDict}
    (hne : ns ≠ []) (h : unique_groups ns = some d) : walk d ≠ [] := by
  have hd := unique_groups_inv h
  obtain ⟨p, rest, rfl⟩ := List.exists_cons_of_ne_nil (unique_groups_ne_nil hne h)
  obtain ⟨c, hc⟩ := List.exists_mem_of_ne_nil _ (hd p (List.mem_cons_self _ _)).2.2.2.1
  exact List.ne_nil_of_mem (List.mem_flatMap.mpr ⟨p, List.mem_cons_self _ _, hc⟩)

end Countdown

namespace Countdown

/-- C1 (code evaluated at the failing input): the search loop initializes
its running minimum to the target itself, so for target 0 and numbers
(2,), where the only calculation (the singleton 2) has difference 2
exceeding the target, the solver returns difference 0 with an empty
retained list instead of the true minimum 2 with the singleton retained. -/
theorem search_initialization_bug :
    countdown_solver 0 [2] = some (0, []) ∧
    (unique_groups [2]).map (fun d => (walk d).map Calculation.result) = some [2] :=
  ⟨rfl, rfl⟩

/-- C2 counterexample: for numbers (2, 2) and target 7 the retained
winning set is not the single Calculation "2 + 2" — "2 x 2" (also 4,
admitted since both operands exceed 1) is retained as well. -/
theorem scenarioB_not_single_calculation :
    (countdown_solver 7 [2, 2]).map (fun p => p.2) ≠
      some [Calculation.mk "2 + 2" 4 false] := by decide

/-- C2 amended: for numbers (2, 2) and target 7 the winning set has
minimal difference 3 and consists exactly of the two Calculations
"2 + 2" and "2 x 2", both with result 4. -/
theorem scenarioB_two_winners :
    countdown_solver 7 [2, 2] =
      some (3, [Calculation.mk "2 + 2" 4 false, Calculation.mk "2 x 2" 4 false]) := rfl

/-- C3 (code evaluated at the failing input): for the sub-multiset
(2, 2, 2, 1) the half-count truncation counts position-combinations, not
distinct contents, so the unordered pair of contents ((2,2),(2,1)) is
emitted twice — once in each order — contradicting the uniqueness
contract. -/
theorem partition_pairs_duplicate_eval :
    partition_pairs [2, 2, 2, 1] =
      [([2, 2], [2, 1]), ([2, 1], [2, 2]), ([2, 2, 2], [1]), ([2, 2, 1], [2])] ∧
    ([2, 2], [2, 1]) ∈ partition_pairs [2, 2, 2, 1] ∧
    ([2, 1], [2, 2]) ∈ partition_pairs [2, 2, 2, 1] := by
  refine ⟨rfl, by decide, by decide⟩

/-- C4: for `x = hi ≥ lo = y`, both strictly positive, the operation
generator yields exactly: addition always; subtraction only when
`hi > lo`; multiplication only when both exceed 1; division only when
`lo > 1` divides `hi` exactly.  Consequently no subtraction result is
≤ 0, and no multiplication or division has an operand equal to 1. -/
theorem operations_admissibility (x y : Int) (hy : 0 < y) (hyx : y ≤ x) :
    (∀ r op, ((r, op) ∈ Calculation.operations x y ↔
      (op = "+" ∧ r = x + y) ∨
      (op = "-" ∧ y < x ∧ r = x - y) ∨
      (op = "x" ∧ 1 < x ∧ 1 < y ∧ r = x * y) ∨
      (op = "/" ∧ 1 < y ∧ x.fmod y = 0 ∧ r = x.fdiv y))) ∧
    (∀ r op, (r, op) ∈ Calculation.operations x y → op = "-" → 0 < r) ∧
    (∀ r op, (r, op) ∈ Calculation.operations x y →
      (op = "x" → 1 < x ∧ 1 < y) ∧ (op = "/" → 1 < y)) := by
  refine ⟨?_, ?_, ?_⟩
  · intro r op
    rw [mem_operations]
    tauto
  · intro r op h hop
    rcases mem_operations.mp h with ⟨-, he⟩ | ⟨hlt, rfl, -⟩ | ⟨-, -, he⟩ | ⟨-, -, he⟩
    · exact absurd (he.symm.trans hop) (by decide)
    · omega
    · exact absurd (he.symm.trans hop) (by decide)
    · exact absurd (he.symm.trans hop) (by decide)
  · intro r op h
    constructor
    · intro hop
      rcases mem_operations.mp h with ⟨-, he⟩ | ⟨-, -, he⟩ | ⟨⟨h1, h2⟩, -, -⟩ | ⟨-, -, he⟩
      · exact absurd (he.symm.trans hop) (by decide)
      · exact absurd (he.symm.trans hop) (by decide)
      · exact ⟨h2, h1⟩
      · exact absurd (he.symm.trans hop) (by decide)
    · intro hop
      rcases mem_operations.mp h with ⟨-, he⟩ | ⟨-, -, he⟩ | ⟨-, -, he⟩ | ⟨⟨h1, -⟩, -, -⟩
      · exact absurd (he.symm.trans hop) (by decide)
      · exact absurd (he.symm.trans hop) (by decide)
      · exact absurd (he.symm.trans hop) (by decide)
      · exact h1

/-- Witness for C4 at `x = 4, y = 2`. -/
theorem operations_admissibility_witness :
    ((6 : Int), "+") ∈ Calculation.operations 4 2 ∧
    ((2 : Int), "/") ∈ Calculation.operations 4 2 := by
  constructor
  · exact ((operations_admissibility 4 2 (by decide) (by decide)).1 6 "+").mpr
      (Or.inl ⟨rfl, by decide⟩)
  · exact ((operations_admissibility 4 2 (by decide) (by decide)).1 2 "/").mpr
      (Or.inr (Or.inr (Or.inr ⟨rfl, by decide, by decide, by decide⟩)))

/-- C5: `halfbinom` returns `None` for every odd `n`, and for even
`n ≥ 2` and `1 ≤ k ≤ n` it returns exactly `C(n, k) / 2` (integer
division), the closed-form product with interleaved exact divisions. -/
theorem halfbinom_spec (n k : Nat) :
    (n % 2 = 1 → Group.halfbinom n k = none) ∧
    (n % 2 = 0 → 2 ≤ n → 1 ≤ k → k ≤ n →
      Group.halfbinom n k = some (n.choose k / 2)) := by
  constructor
  · exact fun h => halfbinom_odd h
  · intro h0 h2 hk1 hkn
    exact halfbinom_even h0 hkn

/-- Witness for C5 at `(n, k) = (4, 2)` and `(3, 1)`. -/
theorem halfbinom_spec_witness :
    Group.halfbinom 4 2 = some 3 ∧ Group.halfbinom 3 1 = none := by
  constructor
  · exact ((halfbinom_spec 4 2).2 rfl (by decide) (by decide) (by decide)).trans (by decide)
  · exact (halfbinom_spec 3 1).1 rfl

/-- C6 counterexample: sorting descending before constructing the index
does change which Calculations are produced, not just their order —
building from (2,2,2,1) (the descending sort of (1,2,2,2)) produces the
expression "(2 / 2) + (2 - 1)", which building from (1,2,2,2) never
produces. -/
theorem index_order_affects_calculations :
    List.insertionSort (fun a b : Int => a ≥ b) [1, 2, 2, 2] = [2, 2, 2, 1] ∧
    (walkExprsOpt [2, 2, 2, 1]).map (fun l => l.contains "(2 / 2) + (2 - 1)") = some true ∧
    (walkExprsOpt [1, 2, 2, 2]).map (fun l => l.contains "(2 / 2) + (2 - 1)") = some false :=
  ⟨rfl, rfl, rfl⟩

/-- C6 amended: a full solve (which sorts its input descending before
building the index) produces identical output — hence identical
Calculations — on every permutation of its input; but the sort itself
can change which Calculations the index construction produces. -/
theorem solver_perm_invariant (target : Int) (ns1 ns2 : List Int) (h : ns1.Perm ns2) :
    countdown_solver target ns1 = countdown_solver target ns2 := by
  have i1 : IsAntisymm Int (fun a b : Int => a ≥ b) := ⟨fun a b h1 h2 => le_antisymm h2 h1⟩
  have i2 : IsTotal Int (fun a b : Int => a ≥ b) := ⟨fun a b => le_total b a⟩
  have i3 : IsTrans Int (fun a b : Int => a ≥ b) := ⟨fun a b c h1 h2 => le_trans h2 h1⟩
  have hsort : List.insertionSort (fun a b : Int => a ≥ b) ns1 =
      List.insertionSort (fun a b : Int => a ≥ b) ns2 :=
    @List.eq_of_perm_of_sorted _ _ i1 _ _
      (((List.perm_insertionSort _ ns1).trans h).trans (List.perm_insertionSort _ ns2).symm)
      (@List.sorted_insertionSort _ _ _ i2 i3 ns1)
      (@List.sorted_insertionSort _ _ _ i2 i3 ns2)
  unfold countdown_solver
  rw [hsort]

/-- Witness for C6 on the permutation (1,2) ~ (2,1). -/
theorem solver_perm_invariant_witness :
    countdown_solver 7 [1, 2] = countdown_solver 7 [2, 1] :=
  solver_perm_invariant 7 [1, 2] [2, 1] (List.Perm.swap 2 1 [])

/-- C7 counterexample: for input (2, 2) the only partition pair of the
group (2,2) is ((2), (2)), whose two sides both contain the value 2 —
they are not disjoint as the claim's `A.numbers ∩ B.numbers = ∅`
demands. -/
theorem partition_not_disjoint :
    (unique_groups [2, 2]).map (fun d => d.map fun kg =>
        (kg.1, kg.2.partitions.map fun p => (p.1.numbers, p.2.numbers))) =
      some [([2], []), ([2, 2], [([2], [2])])] ∧
    ¬ ([2] : List Int).Disjoint [2] := by
  refine ⟨rfl, fun h => h (List.mem_singleton.mpr rfl) (List.mem_singleton.mpr rfl)⟩

/-- C7 amended: for every stored partition pair (A, B) of a built group
G, size(A) + size(B) = size(G) and the multiset union of A.numbers and
B.numbers equals G.numbers (the two sides are complementary selections,
though their value sets need not be disjoint when G has repeats); a
size-1 group has no partitions. -/
theorem partition_union_sizes (ns : List Int) (d : GroupDict)
    (h : unique_groups ns = some d) :
    ∀ p ∈ d,
      (∀ ab ∈ p.2.partitions,
        ab.1.numbers.length + ab.2.numbers.length = p.2.numbers.length ∧
        (ab.1.numbers ++ ab.2.numbers).Perm p.2.numbers) ∧
      (p.2.numbers.length = 1 → p.2.partitions = []) := by
  intro p hp
  have hg := (unique_groups_inv h p hp).2.2.2
  exact ⟨hg.2.2.1, hg.2.2.2⟩

/-- Witness for C7 on the group (2,2) of the input (2,2). -/
theorem partition_union_sizes_witness :
    (([2] : List Int) ++ [2]).Perm [2, 2] := by
  have h := partition_union_sizes [2, 2]
      [([2], Group.mk [2] [] [Calculation.mk "2" 2 true]),
       ([2, 2], Group.mk [2, 2]
         [(Group.mk [2] [] [Calculation.mk "2" 2 true],
           Group.mk [2] [] [Calculation.mk "2" 2 true])]
         [Calculation.mk "2 + 2" 4 false, Calculation.mk "2 x 2" 4 false,
          Calculation.mk "2 / 2" 1 false])]
      rfl
  exact ((h ([2, 2], Group.mk [2, 2]
      [(Group.mk [2] [] [Calculation.mk "2" 2 true],
        Group.mk [2] [] [Calculation.mk "2" 2 true])]
      [Calculation.mk "2 + 2" 4 false, Calculation.mk "2 x 2" 4 false,
       Calculation.mk "2 / 2" 1 false])
      (List.mem_cons_of_mem _ (List.mem_singleton.mpr rfl))).1
    (Group.mk [2] [] [Calculation.mk "2" 2 true],
     Group.mk [2] [] [Calculation.mk "2" 2 true])
    (List.mem_singleton.mpr rfl)).2

/-- C8 counterexample: for the unsorted input (2, 1, 2) the subset index
contains the two distinct keys (2,1) and (1,2) with equal canonical
(multiset) content. -/
theorem unsorted_index_duplicate_content :
    keysOpt [2, 1, 2] = some [[2], [1], [2, 1], [2, 2], [1, 2], [2, 1, 2]] ∧
    ([2, 1] : List Int) ≠ [1, 2] ∧ ([2, 1] : List Int).Perm [1, 2] := by
  refine ⟨rfl, by decide, by decide⟩

/-- C8 amended: when the input sequence is sorted descending (as the
full solve guarantees), no two keys of the subset index have equal
canonical content: any two keys that are permutations of each other are
equal. -/
theorem sorted_index_unique_content (ns : List Int) (d : GroupDict)
    (hs : List.Sorted (fun a b : Int => a ≥ b) ns) (h : unique_groups ns = some d) :
    ∀ p1 ∈ d, ∀ p2 ∈ d, p1.1.Perm p2.1 → p1.1 = p2.1 := by
  intro p1 hp1 p2 hp2 hperm
  have hd := unique_groups_inv h
  have hs1 : List.Sorted (fun a b : Int => a ≥ b) p1.1 :=
    List.Pairwise.sublist (hd p1 hp1).2.1 hs
  have hs2 : List.Sorted (fun a b : Int => a ≥ b) p2.1 :=
    List.Pairwise.sublist (hd p2 hp2).2.1 hs
  exact @List.eq_of_perm_of_sorted _ _ ⟨fun a b h1 h2 => le_antisymm h2 h1⟩ _ _ hperm hs1 hs2

/-- Witness for C8 on the sorted input (2, 1). -/
theorem sorted_index_unique_content_witness : ([2, 1] : List Int) = [2, 1] := by
  have h := sorted_index_unique_content [2, 1]
      [([2], Group.mk [2] [] [Calculation.mk "2" 2 true]),
       ([1], Group.mk [1] [] [Calculation.mk "1" 1 true]),
       ([2, 1], Group.mk [2, 1]
         [(Group.mk [2] [] [Calculation.mk "2" 2 true],
           Group.mk [1] [] [Calculation.mk "1" 1 true])]
         [Calculation.mk "2 + 1" 3 false, Calculation.mk "2 - 1" 1 false])]
      (by decide) rfl
  exact h ([2, 1], Group.mk [2, 1]
      [(Group.mk [2] [] [Calculation.mk "2" 2 true],
        Group.mk [1] [] [Calculation.mk "1" 1 true])]
      [Calculation.mk "2 + 1" 3 false, Calculation.mk "2 - 1" 1 false])
    (List.mem_cons_of_mem _ (List.mem_cons_of_mem _ (List.mem_singleton.mpr rfl)))
    ([2, 1], Group.mk [2, 1]
      [(Group.mk [2] [] [Calculation.mk "2" 2 true],
        Group.mk [1] [] [Calculation.mk "1" 1 true])]
      [Calculation.mk "2 + 1" 3 false, Calculation.mk "2 - 1" 1 false])
    (List.mem_cons_of_mem _ (List.mem_cons_of_mem _ (List.mem_singleton.mpr rfl)))
    (List.Perm.refl _)

/-- C9: under strictly positive input numbers, every Calculation ever
constructed during a solve — singleton base cases and all generated
ones, each owned by some group of the index — has a strictly positive
result. -/
theorem calculation_results_positive (ns : List Int) (d : GroupDict)
    (hpos : ∀ x ∈ ns, 0 < x) (h : unique_groups ns = some d) :
    ∀ p ∈ d, ∀ c ∈ p.2.calculations, 0 < c.result := by
  intro p hp
  exact (unique_groups_inv h p hp).2.2.2.2.1 hpos

/-- Witness for C9 on the input (2,). -/
theorem calculation_results_positive_witness :
    0 < (Calculation.mk "2" 2 true).result := by
  have h := calculation_results_positive [2]
      [([2], Group.mk [2] [] [Calculation.mk "2" 2 true])]
      (by decide) rfl
  exact h ([2], Group.mk [2] [] [Calculation.mk "2" 2 true]) (List.mem_singleton.mpr rfl)
    (Calculation.mk "2" 2 true) (List.mem_singleton.mpr rfl)

/-- C10: `Calculation.generate` on two children with strictly positive
results always yields at least one Calculation, the first being the
unconditional addition; consequently every built group's calculation
list is non-empty and walking a non-empty input yields at least one
Calculation. -/
theorem generate_and_walk_nonempty :
    (∀ ca cb : Calculation, 0 < ca.result → 0 < cb.result →
      Calculation.generate ca cb ≠ [] ∧
      ∀ c, (Calculation.generate ca cb).head? = some c →
        c.result = ca.result + cb.result) ∧
    (∀ ns d, unique_groups ns = some d →
      (∀ p ∈ d, p.2.calculations ≠ []) ∧ (ns ≠ [] → walk d ≠ [])) := by
  constructor
  · intro ca cb _ _
    exact ⟨generate_ne_nil ca cb, head_result_generate ca cb⟩
  · intro ns d h
    exact ⟨fun p hp => (unique_groups_inv h p hp).2.2.2.1, fun hne => walk_ne_nil hne h⟩

/-- Witness for C10 on the singleton children 2 and 2 and the input (2,). -/
theorem generate_and_walk_nonempty_witness :
    Calculation.generate (Calculation.singleton 2) (Calculation.singleton 2) ≠ [] ∧
    walk [([2], Group.mk [2] [] [Calculation.mk "2" 2 true])] ≠ [] := by
  constructor
  · exact (generate_and_walk_nonempty.1 (Calculation.singleton 2) (Calculation.singleton 2)
      (by decide) (by decide)).1
  · exact (generate_and_walk_nonempty.2 [2]
      [([2], Group.mk [2] [] [Calculation.mk "2" 2 true])] rfl).2 (by decide)

end Countdown
